import Mathlib

/-!
Verification development for the `gestor_passwords` repository
(`src/crypto_utils.py`, `src/password_manager.py`).

Shallow embedding conventions:
* Python `bytes` and `str` values are modelled as `List Nat` of their bytes
  (UTF-8 byte sequences for strings); every genuine byte is `< 256`.
* The external `cryptography` library primitives (PBKDF2-HMAC-SHA256 and
  AES-GCM) are not part of the repository; they are modelled by concrete
  executable stand-ins that are faithful to the library contract the source
  relies on: the KDF is a deterministic function of (password, salt) producing
  32 bytes, and the AEAD produces `ciphertext ++ tag(16 bytes)`, with
  decryption recomputing and checking the tag and raising `InvalidTag` on any
  mismatch.  The stand-in tag is bit-change sensitive by construction, so the
  contract "any tampering is detected" is a theorem of the model.
* Randomness (`os.urandom`) and the current date (`datetime.now`) are made
  explicit: each function that draws a nonce / salt / date receives it as an
  extra argument.
* A Python call that may raise is modelled with an `Except PyErr` codomain;
  a broad `try/except` that returns a sentinel is modelled by the
  corresponding total function (the exception never escapes).
-/

/-- Byte list predicate: every element is a genuine byte. -/
def IsBytes (l : List Nat) : Prop := ∀ b ∈ l, b < 256

instance : DecidablePred IsBytes := fun l =>
  inferInstanceAs (Decidable (∀ b ∈ l, b < 256))

/-- Exceptions of the modelled Python layer. -/
inductive PyErr where
  | invalidTag
  | storageError
  | typeError
  deriving DecidableEq, Repr

/-- Model of `cryptography`'s PBKDF2-HMAC-SHA256 as used by
`crypto_utils.derive_key`: a concrete deterministic mixing function of
(password, salt) producing a 32-byte key.  Faithful to the KDF contract the
source depends on: deterministic, fixed 32-byte output. -/
def derive_key (password salt : List Nat) : List Nat :=
  (List.range 32).map (fun i =>
    (List.foldl (fun a b => (a * 131 + b + 17) % 65536) (i + 101)
      (password ++ [0] ++ salt)) % 256)

/-- Keystream of the AES-GCM (CTR) stand-in: byte `i` of the stream for
(key, nonce). -/
def gcmKeystreamByte (key nonce : List Nat) (i : Nat) : Nat :=
  (List.foldl (fun a b => (a * 257 + b + 1) % 65536) (i * 13 + 7)
    (key ++ nonce)) % 256

/-- First `n` bytes of the keystream. -/
def gcmKeystream (key nonce : List Nat) (n : Nat) : List Nat :=
  (List.range n).map (gcmKeystreamByte key nonce)

/-- Accumulator of the authentication-tag stand-in: XOR of every message byte
shifted into byte slot `p % 16` of a 128-bit value, `p` being the byte's
position.  Flipping any single bit of the message flips exactly one bit of the
result, which makes the model's tag tamper-evident by construction. -/
def tagCore : Nat → List Nat → Nat
  | _, [] => 0
  | p, b :: rest => (b <<< (8 * (p % 16))) ^^^ tagCore (p + 1) rest

/-- 128-bit tag value over key, nonce and ciphertext. -/
def gcmTagVal (key nonce ct : List Nat) : Nat :=
  tagCore 0 (key ++ nonce ++ ct)

/-- Little-endian byte serialization (`k` bytes of `n`). -/
def toLE : Nat → Nat → List Nat
  | 0, _ => []
  | k + 1, n => n % 256 :: toLE k (n / 256)

/-- The 16-byte authentication tag of the AES-GCM stand-in. -/
def gcmTag (key nonce ct : List Nat) : List Nat :=
  toLE 16 (gcmTagVal key nonce ct)

/-- Model of `AESGCM(key).encrypt(nonce, pt, None)`: returns
`ciphertext ++ tag` where the ciphertext is the XOR of the plaintext with the
keystream. -/
def aesgcmEncrypt (key nonce pt : List Nat) : List Nat :=
  let ct := List.zipWith (· ^^^ ·) pt (gcmKeystream key nonce pt.length)
  ct ++ gcmTag key nonce ct

/-- Model of `AESGCM(key).decrypt(nonce, body, None)`: splits `body` into
ciphertext and 16-byte tag, recomputes the tag and raises `InvalidTag` on any
mismatch (also on inputs shorter than a tag). -/
def aesgcmDecrypt (key nonce body : List Nat) : Except PyErr (List Nat) :=
  if body.length < 16 then .error .invalidTag
  else
    let ct := body.take (body.length - 16)
    let tg := body.drop (body.length - 16)
    if gcmTag key nonce ct = tg then
      .ok (List.zipWith (· ^^^ ·) ct (gcmKeystream key nonce ct.length))
    else .error .invalidTag

/-- `crypto_utils.encrypt_data(data, key)`: prepends the fresh 12-byte nonce
(modelled as the explicit `nonce` argument standing for `os.urandom(12)`) to
the AEAD output.  The plaintext is already its UTF-8 byte sequence. -/
def encrypt_data (data key nonce : List Nat) : List Nat :=
  nonce ++ aesgcmEncrypt key nonce data

/-- Body of `crypto_utils.decrypt_data(encrypted_data, key)` including its
`try/except`: splits off the first 12 bytes as the nonce, decrypts the rest,
and returns `none` (Python `None`) when anything inside raises. -/
def decrypt_dataCore (encrypted_data key : List Nat) : Option (List Nat) :=
  let nonce := encrypted_data.take 12
  let ciphertext := encrypted_data.drop 12
  match aesgcmDecrypt key nonce ciphertext with
  | .ok plaintext => some plaintext
  | .error _ => none

/-- Call outcome of `crypto_utils.decrypt_data`: because of the bare
`except` in the source, no exception ever escapes the call; the caller always
receives a returned value (`some` plaintext or Python `None`). -/
def decrypt_data (encrypted_data key : List Nat) :
    Except PyErr (Option (List Nat)) :=
  .ok (decrypt_dataCore encrypted_data key)

/-- Alphabet of the base64 model: sextet index to ASCII code. -/
def b64Char (i : Nat) : Nat :=
  if i < 26 then 65 + i
  else if i < 52 then 97 + (i - 26)
  else if i < 62 then 48 + (i - 52)
  else if i = 62 then 43
  else 47

/-- Inverse alphabet lookup (ASCII code to sextet index). -/
def b64Idx (c : Nat) : Option Nat :=
  if 65 ≤ c ∧ c ≤ 90 then some (c - 65)
  else if 97 ≤ c ∧ c ≤ 122 then some (c - 97 + 26)
  else if 48 ≤ c ∧ c ≤ 57 then some (c - 48 + 52)
  else if c = 43 then some 62
  else if c = 47 then some 63
  else none

/-- Model of `base64.b64encode` on bytes; the result is the ASCII byte list of
the base64 text (the source's further `.decode('utf-8')` / `.encode('utf-8')`
is the identity on this ASCII data).  Byte 61 is the padding char. -/
def b64encode : List Nat → List Nat
  | [] => []
  | [a] => [b64Char (a / 4), b64Char ((a % 4) * 16), 61, 61]
  | [a, b] => [b64Char (a / 4), b64Char ((a % 4) * 16 + b / 16),
               b64Char ((b % 16) * 4), 61]
  | a :: b :: c :: rest =>
      b64Char (a / 4) :: b64Char ((a % 4) * 16 + b / 16) ::
      b64Char ((b % 16) * 4 + c / 64) :: b64Char (c % 64) :: b64encode rest

/-- Model of `base64.b64decode`: inverse of `b64encode`, failing (Python
`binascii.Error`) on data it cannot decode. -/
def b64decode : List Nat → Option (List Nat)
  | [] => some []
  | c1 :: c2 :: c3 :: c4 :: rest =>
      match b64Idx c1, b64Idx c2 with
      | some i1, some i2 =>
        if c3 = 61 then
          if c4 = 61 ∧ rest = [] ∧ i2 % 16 = 0 then
            some [i1 * 4 + i2 / 16]
          else none
        else
          match b64Idx c3 with
          | some i3 =>
            if c4 = 61 then
              if rest = [] ∧ i3 % 4 = 0 then
                some [i1 * 4 + i2 / 16, (i2 % 16) * 16 + i3 / 4]
              else none
            else
              match b64Idx c4, b64decode rest with
              | some i4, some tail =>
                  some ((i1 * 4 + i2 / 16) :: ((i2 % 16) * 16 + i3 / 4) ::
                        ((i3 % 4) * 64 + i4) :: tail)
              | _, _ => none
          | none => none
      | _, _ => none
  | _ => none

/-- On-disk state of the two files the program uses: `master.key` (salt plus
verifier) and `passwords.db` (the encrypted store).  `none` models an absent
file; file contents are byte lists. -/
structure FS where
  masterKey : Option (List Nat)
  db : Option (List Nat)
  deriving DecidableEq, Repr

/-- `crypto_utils.hash_password(password, salt)` with an explicit salt (the
`salt=None` branch draws `generate_salt()`, made explicit here). -/
def hash_password (password salt : List Nat) : List Nat × List Nat :=
  (derive_key password salt, salt)

/-- `crypto_utils.setup_master_password(password)`: writes
`salt ++ derived-key` to `master.key` and returns `True`; `salt` stands for
the fresh `generate_salt()` output. -/
def setup_master_password (fs : FS) (password salt : List Nat) : Bool × FS :=
  let key := (hash_password password salt).1
  (true, { fs with masterKey := some (salt ++ key) })

/-- Body of `crypto_utils.verify_master_password(password)` including its
`try/except`: reads 16 salt bytes and 32 verifier bytes from `master.key`,
re-derives, and compares with `secrets.compare_digest`; any exception (for
example a missing file) is caught and the function returns `False`. -/
def verifyCore (fs : FS) (password : List Nat) : Bool :=
  match fs.masterKey with
  | none => false
  | some content =>
      let stored_salt := content.take 16
      let stored_key := (content.drop 16).take 32
      let key := (hash_password password stored_salt).1
      key == stored_key

/-- Call outcome of `crypto_utils.verify_master_password`: the bare `except`
means no exception ever escapes; the caller always receives a `Bool`. -/
def verify_master_password (fs : FS) (password : List Nat) :
    Except PyErr Bool :=
  .ok (verifyCore fs password)

/-- `crypto_utils.encrypt_password(password, master_key)`: AEAD-encrypt then
base64-encode. -/
def encrypt_password (password master_key nonce : List Nat) : List Nat :=
  b64encode (encrypt_data password master_key nonce)

/-- `crypto_utils.decrypt_password(encrypted_password, master_key)` including
its `try/except`: base64-decode then decrypt, `none` on any failure. -/
def decrypt_password (encrypted_password master_key : List Nat) :
    Option (List Nat) :=
  match b64decode encrypted_password with
  | some encrypted_bytes => decrypt_dataCore encrypted_bytes master_key
  | none => none

/-- `crypto_utils.get_master_key(password)`: reads the 16 salt bytes of
`master.key` and re-derives the working key; the `try/except` turns a missing
file into Python `None`. -/
def get_master_key (fs : FS) (password : List Nat) : Option (List Nat) :=
  match fs.masterKey with
  | none => none
  | some content => some (derive_key password (content.take 16))

/-- A credential record as stored in the `passwords.db` plaintext map:
service, username, base64 ciphertext of the password, creation date. -/
structure Entry where
  service : List Nat
  username : List Nat
  password : List Nat
  date : List Nat
  deriving DecidableEq, Repr

/-- Python dict of records, keyed by the `f"{service}_{username}"` string:
an insertion-ordered association list whose keys are unique. -/
abbrev Dict := List (List Nat × Entry)

/-- Python `key in dict`. -/
def dictContains (d : Dict) (k : List Nat) : Bool :=
  d.any (fun kv => kv.1 == k)

/-- Python `dict[key]` lookup (as an `Option`). -/
def dictGet (d : Dict) (k : List Nat) : Option Entry :=
  (d.find? (fun kv => kv.1 == k)).map (fun kv => kv.2)

/-- Python `dict[key] = v`: updates in place when the key is present,
otherwise appends (insertion order). -/
def dictSet (d : Dict) (k : List Nat) (v : Entry) : Dict :=
  if d.any (fun kv => kv.1 == k) then
    d.map (fun kv => if kv.1 == k then (k, v) else kv)
  else d ++ [(k, v)]

/-- Python `del dict[key]`. -/
def dictDel (d : Dict) (k : List Nat) : Dict :=
  d.filter (fun kv => ¬ kv.1 == k)

/-- Length marker of the serialization model: `n` in unary (`n` bytes `1`)
followed by the terminator byte `0`. -/
def encLen (n : Nat) : List Nat := List.replicate n 1 ++ [0]

/-- Length-prefixed string field of the serialization model. -/
def encStr (s : List Nat) : List Nat := encLen s.length ++ s

/-- Serialized record: its four string fields in order. -/
def encEntry (e : Entry) : List Nat :=
  encStr e.service ++ encStr e.username ++ encStr e.password ++ encStr e.date

/-- Serialized key/record pair. -/
def encPair (kv : List Nat × Entry) : List Nat := encStr kv.1 ++ encEntry kv.2

/-- Model of `json.dumps` for the record dict (the source's wire encoding is
JSON text; the spec only requires an exact-round-trip injective encoding, which
this length-prefixed form provides): entry count followed by the serialized
pairs. -/
def serializeDict (d : Dict) : List Nat :=
  encLen d.length ++ List.foldr (fun kv acc => encPair kv ++ acc) [] d

/-- Parse a length marker; inverse of `encLen`. -/
def parseLen : List Nat → Option (Nat × List Nat)
  | [] => none
  | 0 :: rest => some (0, rest)
  | _ :: rest => (parseLen rest).map (fun p => (p.1 + 1, p.2))

/-- Parse a length-prefixed string field; inverse of `encStr`. -/
def parseStr (l : List Nat) : Option (List Nat × List Nat) :=
  match parseLen l with
  | some (n, rest) =>
      if n ≤ rest.length then some (rest.take n, rest.drop n) else none
  | none => none

/-- Parse one serialized key/record pair. -/
def parsePair (l : List Nat) : Option ((List Nat × Entry) × List Nat) :=
  match parseStr l with
  | some (k, r1) =>
    match parseStr r1 with
    | some (s, r2) =>
      match parseStr r2 with
      | some (u, r3) =>
        match parseStr r3 with
        | some (p, r4) =>
          match parseStr r4 with
          | some (dt, r5) => some ((k, ⟨s, u, p, dt⟩), r5)
          | none => none
        | none => none
      | none => none
    | none => none
  | none => none

/-- Parse `n` serialized pairs. -/
def parsePairs : Nat → List Nat → Option (Dict × List Nat)
  | 0, l => some ([], l)
  | n + 1, l =>
    match parsePair l with
    | some (kv, rest) =>
      match parsePairs n rest with
      | some (d, rest2) => some (kv :: d, rest2)
      | none => none
    | none => none

/-- Model of `json.loads` for the record dict; inverse of `serializeDict`,
failing (Python `JSONDecodeError`) on anything else. -/
def deserializeDict (l : List Nat) : Option Dict :=
  match parseLen l with
  | some (n, rest) =>
    match parsePairs n rest with
    | some (d, []) => some d
    | _ => none
  | none => none

/-- In-memory state of a `PasswordManager` after a successful
`get_master_key`: the working key and the decrypted record dict. -/
structure PMState where
  master_key : List Nat
  passwords : Dict
  deriving DecidableEq, Repr

/-- The store file path used by `PasswordManager.__init__`. -/
def db_file : String := "passwords.db"

/-- `PasswordManager._load_passwords`: absent file means empty dict; empty
content means empty dict; otherwise base64-decode and decrypt the blob and
parse the JSON.  The broad `except` (and `decrypt_password` returning `None`)
turns every failure into an empty dict. -/
def load_passwords (fs : FS) (master_key : List Nat) : Dict :=
  match fs.db with
  | none => []
  | some encrypted_data =>
    if encrypted_data = [] then []
    else
      match decrypt_password encrypted_data master_key with
      | some json_data =>
        if json_data = [] then []
        else
          match deserializeDict json_data with
          | some d => d
          | none => []
      | none => []

/-- File-system effects, used to give `_save_passwords` a trace semantics:
`open(path, "wb")` truncates, `write` appends to the open file, `close` ends
the call.  There is no rename constructor to use because the source performs
none. -/
inductive FsOp where
  | openTrunc (path : String)
  | write (path : String) (data : List Nat)
  | close (path : String)
  | rename (src dst : String)
  deriving DecidableEq, Repr

/-- Effect of one file operation on the on-disk state (only the store file is
written by `_save_passwords`). -/
def applyOp (fs : FS) : FsOp → FS
  | .openTrunc p => if p = db_file then { fs with db := some [] } else fs
  | .write p data =>
      if p = db_file then
        { fs with db := some ((fs.db.getD []) ++ data) }
      else fs
  | .close _ => fs
  | .rename _ _ => fs

/-- State of the disk after a prefix of the operations: crash points are
exactly the intermediate states of this fold. -/
def applyOps (fs : FS) (ops : List FsOp) : FS := ops.foldl applyOp fs

/-- The file operations `PasswordManager._save_passwords` performs:
`with open(self.db_file, "wb") as f: f.write(...)` — a direct truncating
write to `passwords.db` itself. -/
def savePasswordsOps (st : PMState) (nonce : List Nat) : List FsOp :=
  let json_data := serializeDict st.passwords
  let encrypted_data := encrypt_password json_data st.master_key nonce
  [.openTrunc db_file, .write db_file encrypted_data, .close db_file]

/-- `PasswordManager._save_passwords`: serialize the dict, encrypt it whole,
write it to the store file; returns `True` (`nonce` stands for the
`os.urandom(12)` drawn inside `encrypt_data`). -/
def save_passwords (st : PMState) (fs : FS) (nonce : List Nat) : Bool × FS :=
  (true, applyOps fs (savePasswordsOps st nonce))

/-- The record id `f"{service}_{username}"` (byte 95 is the underscore). -/
def pyId (service username : List Nat) : List Nat :=
  service ++ [95] ++ username

/-- `PasswordManager.add_password`: encrypt the password individually, upsert
the record under `pyId`, then save the whole dict.  `nonce1` is the nonce of
the password encryption, `nonce2` the one of the save, `date` the
`datetime.now` date string. -/
def add_password (st : PMState) (fs : FS)
    (service username password nonce1 nonce2 date : List Nat) :
    Bool × PMState × FS :=
  let password_id := pyId service username
  let encrypted_password := encrypt_password password st.master_key nonce1
  let entry : Entry := ⟨service, username, encrypted_password, date⟩
  let st' : PMState := { st with passwords := dictSet st.passwords password_id entry }
  let (ok, fs') := save_passwords st' fs nonce2
  (ok, st', fs')

/-- `PasswordManager.get_password`: look the id up and decrypt the stored
password field (the decrypted component is `none` when decryption fails). -/
def get_password (st : PMState) (service username : List Nat) :
    Option (List Nat × List Nat × Option (List Nat) × List Nat) :=
  match dictGet st.passwords (pyId service username) with
  | some e => some (e.service, e.username,
                    decrypt_password e.password st.master_key, e.date)
  | none => none

/-- `PasswordManager.get_all_passwords`: decrypt every stored record. -/
def get_all_passwords (st : PMState) :
    List (List Nat × List Nat × Option (List Nat) × List Nat) :=
  st.passwords.map (fun kv =>
    (kv.2.service, kv.2.username,
     decrypt_password kv.2.password st.master_key, kv.2.date))

/-- `PasswordManager.delete_password`: when the id is present, remove it and
save the remaining dict (returning the save result); otherwise return `False`
without touching anything. -/
def delete_password (st : PMState) (fs : FS)
    (service username nonce : List Nat) : Bool × PMState × FS :=
  let password_id := pyId service username
  if dictContains st.passwords password_id then
    let st' : PMState := { st with passwords := dictDel st.passwords password_id }
    let (ok, fs') := save_passwords st' fs nonce
    (ok, st', fs')
  else (false, st, fs)

/-- The re-add loop of `PasswordManager.change_master_password`: each
decrypted record is added again under the new key.  A record whose stored
password failed to decrypt (`none`) makes `add_password` raise inside and
return `False` before mutating anything, so the loop skips it.  `ent i` gives
the (password nonce, save nonce, date) drawn at iteration `i`. -/
def readdLoop (ent : Nat → List Nat × List Nat × List Nat) :
    PMState → FS → Nat →
    List (List Nat × List Nat × Option (List Nat) × List Nat) → PMState × FS
  | st, fs, _, [] => (st, fs)
  | st, fs, i, (service, username, some pw, _) :: rest =>
      let e := ent i
      let (_, st', fs') := add_password st fs service username pw e.1 e.2.1 e.2.2
      readdLoop ent st' fs' (i + 1) rest
  | st, fs, i, (_, _, none, _) :: rest => readdLoop ent st fs (i + 1) rest

/-- `PasswordManager.change_master_password`: decrypt everything, write a new
verifier file (fresh salt `newSalt`), re-derive the working key, clear the
dict, and re-add every record under the new key.  The `getD []` is the
unreachable `get_master_key` `None` branch: the verifier file was written one
line earlier. -/
def change_master_password (st : PMState) (fs : FS)
    (new_password newSalt : List Nat)
    (ent : Nat → List Nat × List Nat × List Nat) : Bool × PMState × FS :=
  let all_passwords := get_all_passwords st
  let (_, fs1) := setup_master_password fs new_password newSalt
  let new_master_key := (get_master_key fs1 new_password).getD []
  let st1 : PMState := { master_key := new_master_key, passwords := [] }
  let (st2, fs2) := readdLoop ent st1 fs1 0 all_passwords
  (true, st2, fs2)

/-- All four string fields of an entry are genuine byte strings. -/
def EntryBytes (e : Entry) : Prop :=
  IsBytes e.service ∧ IsBytes e.username ∧ IsBytes e.password ∧ IsBytes e.date

instance : DecidablePred EntryBytes := fun _ =>
  inferInstanceAs (Decidable (_ ∧ _ ∧ _ ∧ _))

/-- Flip bit `j` of the byte at position `i` of a blob (the tampering action
of the specification's tamper-detection property). -/
def flipBit (l : List Nat) (i j : Nat) : List Nat :=
  l.set i (l.getD i 0 ^^^ (1 <<< j))

/-- The dict produced by the re-add loop of `change_master_password` when it
starts from the empty dict: each decrypted record (service, username,
plaintext, old date) becomes a fresh record keyed by `pyId`, with its
plaintext re-encrypted under the new key `K` using the nonce and date drawn
at its iteration. -/
def rotatedDict (K : List Nat) (ent : Nat → List Nat × List Nat × List Nat) :
    Nat → List (List Nat × List Nat × Option (List Nat) × List Nat) → Dict
  | _, [] => []
  | i, (service, username, some pw, _) :: rest =>
      (pyId service username,
       Entry.mk service username (encrypt_password pw K (ent i).1) (ent i).2.2)
        :: rotatedDict K ent (i + 1) rest
  | i, (_, _, none, _) :: rest => rotatedDict K ent (i + 1) rest

theorem derive_key_length (password salt : List Nat) :
    (derive_key password salt).length = 32 := by
  simp [derive_key]

theorem gcmKeystream_length (key nonce : List Nat) (n : Nat) :
    (gcmKeystream key nonce n).length = n := by
  simp [gcmKeystream]

theorem toLE_length (k n : Nat) : (toLE k n).length = k := by
  induction k generalizing n with
  | zero => rfl
  | succ k ih => simp [toLE, ih]

theorem gcmTag_length (key nonce ct : List Nat) :
    (gcmTag key nonce ct).length = 16 :=
  toLE_length 16 _

theorem zipWith_xor_cancel (pt : List Nat) :
    ∀ ks : List Nat, pt.length = ks.length →
      List.zipWith (· ^^^ ·) (List.zipWith (· ^^^ ·) pt ks) ks = pt := by
  induction pt with
  | nil => intro ks h; simp
  | cons a pt ih =>
    intro ks h
    cases ks with
    | nil => simp at h
    | cons b ks =>
      simp only [List.zipWith_cons_cons]
      rw [Nat.xor_assoc, Nat.xor_self, Nat.xor_zero, ih ks (by simpa using h)]

theorem aesgcmDecrypt_aesgcmEncrypt (key nonce pt : List Nat) :
    aesgcmDecrypt key nonce (aesgcmEncrypt key nonce pt) = .ok pt := by
  unfold aesgcmEncrypt aesgcmDecrypt
  have hct : (List.zipWith (· ^^^ ·) pt (gcmKeystream key nonce pt.length)).length
      = pt.length := by
    simp [gcmKeystream_length]
  simp only [List.length_append, gcmTag_length, hct]
  rw [if_neg (by omega)]
  have htake : pt.length + 16 - 16 =
      (List.zipWith (· ^^^ ·) pt (gcmKeystream key nonce pt.length)).length := by
    omega
  rw [htake, List.take_left, List.drop_left, if_pos rfl, hct]
  exact congrArg _ (zipWith_xor_cancel pt _ (by simp [gcmKeystream_length]))

theorem decrypt_dataCore_encrypt_data (pt key nonce : List Nat)
    (hn : nonce.length = 12) :
    decrypt_dataCore (encrypt_data pt key nonce) key = some pt := by
  unfold decrypt_dataCore encrypt_data
  rw [← hn, List.take_left, List.drop_left]
  simp [aesgcmDecrypt_aesgcmEncrypt]

theorem b64Idx_b64Char : ∀ i < 64, b64Idx (b64Char i) = some i := by decide

theorem b64Char_ne_pad : ∀ i < 64, b64Char i ≠ 61 := by decide

theorem b64Char_lt : ∀ i < 64, b64Char i < 256 := by decide

theorem b64Idx_lt {c i : Nat} (h : b64Idx c = some i) : i < 64 := by
  unfold b64Idx at h
  repeat' split at h
  all_goals simp_all
  all_goals omega

theorem b64decode_b64encode (l : List Nat) (hl : IsBytes l) :
    b64decode (b64encode l) = some l := by
  induction l using b64encode.induct with
  | case1 => rfl
  | case2 a =>
    have ha : a < 256 := hl a (by simp)
    have h1 := b64Idx_b64Char (a / 4) (by omega)
    have h2 := b64Idx_b64Char (a % 4 * 16) (by omega)
    have h3 : a % 4 * 16 % 16 = 0 := by omega
    simp only [b64encode, b64decode, h1, h2, h3, and_true, and_self, if_true,
      Option.some.injEq, List.cons.injEq]
    omega
  | case3 a b =>
    have ha : a < 256 := hl a (by simp)
    have hb : b < 256 := hl b (by simp)
    have h1 := b64Idx_b64Char (a / 4) (by omega)
    have h2 := b64Idx_b64Char (a % 4 * 16 + b / 16) (by omega)
    have h3 := b64Idx_b64Char (b % 16 * 4) (by omega)
    have hc3 : b64Char (b % 16 * 4) ≠ 61 := b64Char_ne_pad _ (by omega)
    have h4 : b % 16 * 4 % 4 = 0 := by omega
    simp only [b64encode, b64decode, h1, h2, h3, hc3, h4, and_true, and_self,
      if_true, if_false, ite_false, Option.some.injEq, List.cons.injEq]
    refine ⟨by omega, by omega⟩
  | case4 a b c rest ih =>
    have ha : a < 256 := hl a (by simp)
    have hb : b < 256 := hl b (by simp)
    have hc : c < 256 := hl c (by simp)
    have hrest : IsBytes rest := fun x hx => hl x (by simp [hx])
    have h1 := b64Idx_b64Char (a / 4) (by omega)
    have h2 := b64Idx_b64Char (a % 4 * 16 + b / 16) (by omega)
    have h3 := b64Idx_b64Char (b % 16 * 4 + c / 64) (by omega)
    have h4 := b64Idx_b64Char (c % 64) (by omega)
    have hc3 : b64Char (b % 16 * 4 + c / 64) ≠ 61 := b64Char_ne_pad _ (by omega)
    have hc4 : b64Char (c % 64) ≠ 61 := b64Char_ne_pad _ (by omega)
    simp only [b64encode, b64decode, h1, h2, h3, h4, hc3, hc4, ih hrest,
      if_false, ite_false, Option.some.injEq, List.cons.injEq, and_true]
    refine ⟨by omega, by omega, by omega⟩

theorem xor_byte_lt {a b : Nat} (ha : a < 256) (hb : b < 256) :
    a ^^^ b < 256 := by
  have h8 : (256 : Nat) = 2 ^ 8 := by norm_num
  rw [h8] at ha hb ⊢
  exact Nat.xor_lt_two_pow ha hb

theorem zipWith_xor_isBytes {l1 l2 : List Nat} (h1 : IsBytes l1)
    (h2 : IsBytes l2) : IsBytes (List.zipWith (· ^^^ ·) l1 l2) := by
  induction l1 generalizing l2 with
  | nil => intro x hx; simp at hx
  | cons a t ih =>
    cases l2 with
    | nil => intro x hx; simp at hx
    | cons b t2 =>
      intro x hx
      simp only [List.zipWith_cons_cons, List.mem_cons] at hx
      rcases hx with h | h
      · subst h
        exact xor_byte_lt (h1 a (by simp)) (h2 b (by simp))
      · exact ih (fun y hy => h1 y (by simp [hy]))
          (fun y hy => h2 y (by simp [hy])) x h

theorem toLE_isBytes (k n : Nat) : IsBytes (toLE k n) := by
  induction k generalizing n with
  | zero => intro x hx; simp [toLE] at hx
  | succ k ih =>
    intro x hx
    simp only [toLE, List.mem_cons] at hx
    rcases hx with h | h
    · omega
    · exact ih _ x h

theorem gcmKeystream_isBytes (key nonce : List Nat) (n : Nat) :
    IsBytes (gcmKeystream key nonce n) := by
  intro x hx
  simp only [gcmKeystream, List.mem_map] at hx
  obtain ⟨i, _, rfl⟩ := hx
  simp only [gcmKeystreamByte]
  omega

theorem append_isBytes {l1 l2 : List Nat} (h1 : IsBytes l1) (h2 : IsBytes l2) :
    IsBytes (l1 ++ l2) := by
  intro x hx
  rcases List.mem_append.mp hx with h | h
  · exact h1 x h
  · exact h2 x h

theorem encrypt_data_isBytes {pt nonce : List Nat} (key : List Nat)
    (hpt : IsBytes pt) (hn : IsBytes nonce) :
    IsBytes (encrypt_data pt key nonce) := by
  unfold encrypt_data aesgcmEncrypt
  exact append_isBytes hn (append_isBytes
    (zipWith_xor_isBytes hpt (gcmKeystream_isBytes key nonce pt.length))
    (toLE_isBytes 16 _))

theorem decrypt_password_encrypt_password (pt key nonce : List Nat)
    (hpt : IsBytes pt) (hn : IsBytes nonce) (hlen : nonce.length = 12) :
    decrypt_password (encrypt_password pt key nonce) key = some pt := by
  unfold decrypt_password encrypt_password
  rw [b64decode_b64encode _ (encrypt_data_isBytes key hpt hn)]
  exact decrypt_dataCore_encrypt_data pt key nonce hlen

theorem b64decode_isBytes : ∀ l bs : List Nat, b64decode l = some bs → IsBytes bs
  | [], bs, h => by
    simp only [b64decode, Option.some.injEq] at h
    subst h
    intro x hx
    simp at hx
  | [_], bs, h => by simp [b64decode] at h
  | [_, _], bs, h => by simp [b64decode] at h
  | [_, _, _], bs, h => by simp [b64decode] at h
  | c1 :: c2 :: c3 :: c4 :: rest, bs, h => by
    simp only [b64decode] at h
    cases hi1 : b64Idx c1 with
    | none => simp [hi1] at h
    | some i1 =>
    cases hi2 : b64Idx c2 with
    | none => simp [hi1, hi2] at h
    | some i2 =>
    simp only [hi1, hi2] at h
    have hb1 := b64Idx_lt hi1
    have hb2 := b64Idx_lt hi2
    by_cases h3 : c3 = 61
    · rw [if_pos h3] at h
      split at h
      · injection h with h
        subst h
        intro x hx
        simp only [List.mem_singleton] at hx
        omega
      · cases h
    · rw [if_neg h3] at h
      cases hi3 : b64Idx c3 with
      | none => simp [hi3] at h
      | some i3 =>
      simp only [hi3] at h
      have hb3 := b64Idx_lt hi3
      by_cases h4 : c4 = 61
      · rw [if_pos h4] at h
        split at h
        · injection h with h
          subst h
          intro x hx
          simp only [List.mem_cons, List.mem_singleton] at hx
          rcases hx with h | h | h
          · omega
          · omega
          · simp at h
        · cases h
      · rw [if_neg h4] at h
        cases hi4 : b64Idx c4 with
        | none => simp [hi4] at h
        | some i4 =>
        cases hrec : b64decode rest with
        | none => simp [hi4, hrec] at h
        | some tail =>
        simp only [hi4, hrec, Option.some.injEq] at h
        subst h
        have hb4 := b64Idx_lt hi4
        have htail := b64decode_isBytes rest tail hrec
        intro x hx
        simp only [List.mem_cons] at hx
        rcases hx with h | h | h | h
        · omega
        · omega
        · omega
        · exact htail x h

theorem decrypt_dataCore_isBytes {blob key pt : List Nat}
    (hblob : IsBytes blob) (h : decrypt_dataCore blob key = some pt) :
    IsBytes pt := by
  simp only [decrypt_dataCore, aesgcmDecrypt] at h
  split at h
  · rename_i plaintext heq
    injection h with h
    subst h
    split at heq
    · simp at heq
    · split at heq
      · injection heq with heq
        subst heq
        exact zipWith_xor_isBytes
          (fun x hx => hblob x (List.drop_subset 12 blob (List.take_subset _ _ hx)))
          (gcmKeystream_isBytes _ _ _)
      · simp at heq
  · simp at h

theorem decrypt_password_isBytes {ep key pt : List Nat}
    (h : decrypt_password ep key = some pt) : IsBytes pt := by
  unfold decrypt_password at h
  cases hb : b64decode ep with
  | none => rw [hb] at h; cases h
  | some bytes =>
    rw [hb] at h
    exact decrypt_dataCore_isBytes (b64decode_isBytes ep bytes hb) h

theorem parseLen_encLen (n : Nat) (r : List Nat) :
    parseLen (encLen n ++ r) = some (n, r) := by
  induction n with
  | zero => rfl
  | succ n ih =>
    simp only [encLen, List.replicate_succ, List.cons_append] at ih ⊢
    simp only [parseLen, ih]
    rfl

theorem parseStr_encStr (s r : List Nat) :
    parseStr (encStr s ++ r) = some (s, r) := by
  unfold parseStr encStr
  rw [List.append_assoc, parseLen_encLen]
  simp [List.take_left, List.drop_left]

theorem parsePair_encPair (kv : List Nat × Entry) (r : List Nat) :
    parsePair (encPair kv ++ r) = some (kv, r) := by
  unfold parsePair encPair encEntry
  rw [List.append_assoc, parseStr_encStr, List.append_assoc, List.append_assoc,
    List.append_assoc]
  simp only [parseStr_encStr]

theorem parsePairs_append (d : Dict) (r : List Nat) :
    parsePairs d.length (List.foldr (fun kv acc => encPair kv ++ acc) [] d ++ r)
      = some (d, r) := by
  induction d with
  | nil => rfl
  | cons kv t ih =>
    simp only [List.foldr_cons, List.length_cons]
    rw [List.append_assoc]
    simp only [parsePairs, parsePair_encPair, ih]

theorem deserializeDict_serializeDict (d : Dict) :
    deserializeDict (serializeDict d) = some d := by
  have h2 := parsePairs_append d []
  rw [List.append_nil] at h2
  unfold deserializeDict serializeDict
  simp only [parseLen_encLen, h2]

theorem encLen_isBytes (n : Nat) : IsBytes (encLen n) := by
  intro x hx
  simp only [encLen] at hx
  rcases List.mem_append.mp hx with h | h
  · have := List.eq_of_mem_replicate h
    omega
  · simp only [List.mem_singleton] at h
    omega

theorem encStr_isBytes {s : List Nat} (hs : IsBytes s) : IsBytes (encStr s) :=
  append_isBytes (encLen_isBytes _) hs

theorem serializeDict_isBytes {d : Dict}
    (hd : ∀ kv ∈ d, IsBytes kv.1 ∧ EntryBytes kv.2) :
    IsBytes (serializeDict d) := by
  unfold serializeDict
  apply append_isBytes (encLen_isBytes _)
  induction d with
  | nil => intro x hx; simp at hx
  | cons kv t ih =>
    simp only [List.foldr_cons]
    apply append_isBytes
    · obtain ⟨hk, hs, hu, hp, hdt⟩ := hd kv (by simp)
      exact append_isBytes (encStr_isBytes hk)
        (append_isBytes (append_isBytes (append_isBytes (encStr_isBytes hs)
          (encStr_isBytes hu)) (encStr_isBytes hp)) (encStr_isBytes hdt))
    · exact ih (fun kv2 h2 => hd kv2 (by simp [h2]))

theorem serializeDict_ne_nil (d : Dict) : serializeDict d ≠ [] := by
  have : (serializeDict d).length ≠ 0 := by
    simp [serializeDict, encLen]
  intro h
  rw [h] at this
  exact this rfl

theorem b64encode_ne_nil (l : List Nat) (h : l ≠ []) : b64encode l ≠ [] := by
  match l with
  | [] => exact absurd rfl h
  | [a] => simp [b64encode]
  | [a, b] => simp [b64encode]
  | a :: b :: c :: rest => simp [b64encode]

theorem dictGet_cons_self (k : List Nat) (v : Entry) (t : Dict) :
    dictGet ((k, v) :: t) k = some v := by
  simp [dictGet]

theorem dictGet_cons_ne (k k' : List Nat) (v : Entry) (t : Dict)
    (h : k ≠ k') : dictGet ((k, v) :: t) k' = dictGet t k' := by
  simp [dictGet, List.find?_cons_of_neg, h]

theorem dictSet_absent {d : Dict} {k : List Nat} (v : Entry)
    (h : dictContains d k = false) : dictSet d k v = d ++ [(k, v)] := by
  unfold dictSet
  unfold dictContains at h
  rw [if_neg (by simp [h])]

theorem dictGet_map_replace_self (d : Dict) (k : List Nat) (v : Entry)
    (hany : d.any (fun kv => kv.1 == k) = true) :
    dictGet (d.map (fun kv => if kv.1 == k then (k, v) else kv)) k = some v := by
  induction d with
  | nil => simp at hany
  | cons kv t ih =>
    obtain ⟨k1, v1⟩ := kv
    simp only [List.map_cons]
    by_cases hk : k1 = k
    · rw [if_pos (by simp [hk])]
      exact dictGet_cons_self k v _
    · rw [if_neg (by simp [hk])]
      rw [dictGet_cons_ne k1 k v1 _ hk]
      apply ih
      simp only [List.any_cons] at hany
      rcases Bool.or_eq_true_iff.mp hany with h1 | h1
      · exact absurd (by simpa using h1) hk
      · exact h1

theorem dictGet_map_replace_ne (d : Dict) (k k' : List Nat) (v : Entry)
    (h : k ≠ k') :
    dictGet (d.map (fun kv => if kv.1 == k then (k, v) else kv)) k'
      = dictGet d k' := by
  induction d with
  | nil => rfl
  | cons kv t ih =>
    obtain ⟨k1, v1⟩ := kv
    simp only [List.map_cons]
    by_cases hk : k1 = k
    · rw [if_pos (by simp [hk]), dictGet_cons_ne k k' v _ h,
        dictGet_cons_ne k1 k' v1 t (by rw [hk]; exact h)]
      exact ih
    · rw [if_neg (by simp [hk])]
      by_cases hk' : k1 = k'
      · subst hk'
        rw [dictGet_cons_self, dictGet_cons_self]
      · rw [dictGet_cons_ne k1 k' v1 _ hk', dictGet_cons_ne k1 k' v1 t hk']
        exact ih

theorem dictGet_dictSet_self (d : Dict) (k : List Nat) (v : Entry) :
    dictGet (dictSet d k v) k = some v := by
  unfold dictSet
  split
  · rename_i hany
    exact dictGet_map_replace_self d k v hany
  · rename_i hany
    unfold dictGet
    rw [List.find?_append]
    have h0 : (d.any fun kv => kv.1 == k) = false := Bool.eq_false_iff.mpr hany
    have h1 : (d.find? fun kv => kv.1 == k) = none := by
      rw [List.find?_eq_none]
      intro x hx
      exact List.any_eq_false.mp h0 x hx
    simp [h1]

theorem dictGet_dictSet_ne (d : Dict) (k k' : List Nat) (v : Entry)
    (h : k ≠ k') : dictGet (dictSet d k v) k' = dictGet d k' := by
  unfold dictSet
  split
  · exact dictGet_map_replace_ne d k k' v h
  · unfold dictGet
    rw [List.find?_append]
    have h1 : ([((k, v))].find? fun kv => kv.1 == k') = none := by
      rw [List.find?_eq_none]
      intro x hx
      simp only [List.mem_singleton] at hx
      subst hx
      simpa using h
    rw [h1, Option.or_none]

theorem dictContains_dictDel_self (d : Dict) (k : List Nat) :
    dictContains (dictDel d k) k = false := by
  unfold dictContains dictDel
  rw [List.any_eq_false]
  intro x hx
  have := List.of_mem_filter hx
  simpa using this

theorem save_passwords_eq (st : PMState) (fs : FS) (nonce : List Nat) :
    save_passwords st fs nonce =
      (true, { fs with db := some (encrypt_password (serializeDict st.passwords)
                 st.master_key nonce) }) := by
  simp [save_passwords, applyOps, savePasswordsOps, applyOp, db_file]

theorem add_password_eq (st : PMState) (fs : FS)
    (service username password n1 n2 date : List Nat) :
    add_password st fs service username password n1 n2 date =
      (true,
       { st with passwords := dictSet st.passwords (pyId service username) (Entry.mk service username (encrypt_password password st.master_key n1) date) },
       { fs with db := some (encrypt_password (serializeDict (dictSet st.passwords (pyId service username) (Entry.mk service username (encrypt_password password st.master_key n1) date))) st.master_key n2) }) := by
  simp only [add_password]
  simp only [save_passwords_eq]

/-- C8: opening a vault when the store file is absent or zero-length yields an
empty record set and succeeds without error (`_load_passwords` returns the
empty dict on both the missing-file and empty-content paths). -/
theorem C8_empty_store_empty_vault (fs : FS) (key : List Nat)
    (h : fs.db = none ∨ fs.db = some []) : load_passwords fs key = [] := by
  unfold load_passwords
  rcases h with h | h <;> simp [h]

theorem C8_empty_store_empty_vault_witness :
    load_passwords ⟨none, none⟩ [7] = [] ∧
    load_passwords ⟨none, some []⟩ [7] = [] :=
  ⟨C8_empty_store_empty_vault ⟨none, none⟩ [7] (Or.inl rfl),
   C8_empty_store_empty_vault ⟨none, some []⟩ [7] (Or.inr rfl)⟩

/-- C10: deleting a non-existent (service, username) pair returns `False` and
changes nothing: the in-memory dict and the store file are untouched because
`_save_passwords` is not invoked on the not-found branch. -/
theorem C10_delete_missing_noop (st : PMState) (fs : FS)
    (service username nonce : List Nat)
    (h : dictContains st.passwords (pyId service username) = false) :
    delete_password st fs service username nonce = (false, st, fs) := by
  unfold delete_password
  rw [if_neg (by simp [h])]

theorem C10_delete_missing_noop_witness :
    delete_password ⟨[7], []⟩ ⟨none, some [9]⟩ [97] [98] [] =
      (false, ⟨[7], []⟩, ⟨none, some [9]⟩) :=
  C10_delete_missing_noop ⟨[7], []⟩ ⟨none, some [9]⟩ [97] [98] [] rfl

/-- C9: when the record exists, delete removes it, persists the remaining set,
and returns `True`; a second delete of the same (service, username) then
returns `False` (and changes nothing), so deleting twice yields `True` then
`False`. -/
theorem C9_delete_true_then_false (st : PMState) (fs : FS)
    (service username nonce nonce2 : List Nat)
    (h : dictContains st.passwords (pyId service username) = true) :
    delete_password st fs service username nonce =
      (true,
       { st with passwords := dictDel st.passwords (pyId service username) },
       { fs with db := some (encrypt_password (serializeDict (dictDel st.passwords (pyId service username))) st.master_key nonce) }) ∧
    delete_password
        { st with passwords := dictDel st.passwords (pyId service username) }
        { fs with db := some (encrypt_password (serializeDict (dictDel st.passwords (pyId service username))) st.master_key nonce) }
        service username nonce2 =
      (false,
       { st with passwords := dictDel st.passwords (pyId service username) },
       { fs with db := some (encrypt_password (serializeDict (dictDel st.passwords (pyId service username))) st.master_key nonce) }) := by
  constructor
  · simp only [delete_password]
    rw [if_pos h]
    simp only [save_passwords_eq]
  · unfold delete_password
    rw [if_neg (by simp [dictContains_dictDel_self])]

theorem C9_delete_true_then_false_witness :
    dictContains [([97, 95, 98], Entry.mk [97] [98] [5] [50])] (pyId [97] [98]) = true ∧
    (delete_password ⟨[7], [([97, 95, 98], Entry.mk [97] [98] [5] [50])]⟩ ⟨none, none⟩ [97] [98] (List.replicate 12 0)).1 = true ∧
    (delete_password ⟨[7], dictDel [([97, 95, 98], Entry.mk [97] [98] [5] [50])] (pyId [97] [98])⟩ ⟨none, some (encrypt_password (serializeDict (dictDel [([97, 95, 98], Entry.mk [97] [98] [5] [50])] (pyId [97] [98]))) [7] (List.replicate 12 0))⟩ [97] [98] (List.replicate 12 1)).1 = false := by
  have h := C9_delete_true_then_false ⟨[7], [([97, 95, 98], Entry.mk [97] [98] [5] [50])]⟩
    ⟨none, none⟩ [97] [98] (List.replicate 12 0) (List.replicate 12 1) (by decide)
  exact ⟨by decide, by rw [h.1], by rw [h.2]⟩

/-- C5 counterexample: record identity is NOT the pair (service, username).
The source keys records by the string `f"{service}_{username}"`, so the two
distinct pairs ("a_b", "c") and ("a", "b_c") map to the same id "a_b_c": after
adding both to an empty vault, only one record remains — the second add
overwrote the first even though the pairs differ, contradicting the claim
that distinct pairs never collide or overwrite. -/
theorem C5_counterexample_distinct_pairs_collide :
    (([97, 95, 98], [99]) : List Nat × List Nat) ≠ ([97], [98, 95, 99]) ∧
    (add_password (add_password ⟨[7], []⟩ ⟨none, none⟩ [97, 95, 98] [99] [1] (List.replicate 12 0) (List.replicate 12 0) [50]).2.1 (add_password ⟨[7], []⟩ ⟨none, none⟩ [97, 95, 98] [99] [1] (List.replicate 12 0) (List.replicate 12 0) [50]).2.2 [97] [98, 95, 99] [2] (List.replicate 12 0) (List.replicate 12 0) [50]).2.1.passwords.length = 1 := by
  constructor
  · decide
  · decide

/-- C5 (amended): record identity is the concatenated string
`f"{service}_{username}"`, not the pair — `add` overwrites an existing record
exactly when the concatenations coincide (which happens for some distinct
pairs, e.g. ("a_b", "c") vs ("a", "b_c")), and records whose concatenated
ids differ never collide or overwrite each other. -/
theorem C5_identity_is_concatenated_id (st : PMState) (fs : FS)
    (s1 u1 s2 u2 p n1 n2 dt : List Nat) (e : Entry)
    (hold : dictGet st.passwords (pyId s1 u1) = some e) :
    dictGet (add_password st fs s2 u2 p n1 n2 dt).2.1.passwords (pyId s1 u1) =
      some (if pyId s1 u1 = pyId s2 u2
            then Entry.mk s2 u2 (encrypt_password p st.master_key n1) dt
            else e) := by
  rw [add_password_eq]
  by_cases hid : pyId s1 u1 = pyId s2 u2
  · rw [if_pos hid, hid, dictGet_dictSet_self]
  · rw [if_neg hid,
      dictGet_dictSet_ne st.passwords (pyId s2 u2) (pyId s1 u1) _
        (fun hh => hid hh.symm),
      hold]

theorem C5_identity_is_concatenated_id_witness :
    dictGet [([97, 95, 98, 95, 99], Entry.mk [97, 95, 98] [99] [5] [50])] (pyId [97, 95, 98] [99]) = some (Entry.mk [97, 95, 98] [99] [5] [50]) ∧
    dictGet (add_password ⟨[7], [([97, 95, 98, 95, 99], Entry.mk [97, 95, 98] [99] [5] [50])]⟩ ⟨none, none⟩ [97] [98, 95, 99] [2] (List.replicate 12 0) (List.replicate 12 0) [50]).2.1.passwords (pyId [97, 95, 98] [99]) =
      some (if pyId [97, 95, 98] [99] = pyId [97] [98, 95, 99]
            then Entry.mk [97] [98, 95, 99] (encrypt_password [2] [7] (List.replicate 12 0)) [50]
            else Entry.mk [97, 95, 98] [99] [5] [50]) := by
  have h := C5_identity_is_concatenated_id
    ⟨[7], [([97, 95, 98, 95, 99], Entry.mk [97, 95, 98] [99] [5] [50])]⟩ ⟨none, none⟩
    [97, 95, 98] [99] [97] [98, 95, 99] [2] (List.replicate 12 0) (List.replicate 12 0) [50]
    (Entry.mk [97, 95, 98] [99] [5] [50]) (by decide)
  exact ⟨by decide, h⟩

/-- C4 counterexample: when the verifier file `master.key` is missing,
`verify_master_password` does not fail with a `StorageError` — the bare
`except` catches the `FileNotFoundError` and the call returns `False`, the
same value as a cryptographic mismatch. -/
theorem C4_counterexample_missing_verifier_returns_false :
    verify_master_password ⟨none, none⟩ [112] = Except.ok false ∧
    verify_master_password ⟨none, none⟩ [112] ≠ Except.error PyErr.storageError := by
  constructor
  · rfl
  · simp [verify_master_password, verifyCore]

/-- C4 (amended): after `setup(password)`, `verify(password)` returns `True`
and `verify(wrong)` returns `False` (not an exception) for any candidate whose
derived key differs; but when the verifier file is missing, `verify` also
returns `False` — no `StorageError` is raised, the failure is indistinguishable
from a mismatch. -/
theorem C4_verify_behavior (fs fs2 : FS) (password wrong salt : List Nat)
    (hsalt : salt.length = 16)
    (hmismatch : derive_key wrong salt ≠ derive_key password salt)
    (hmissing : fs2.masterKey = none) :
    verify_master_password (setup_master_password fs password salt).2 password = .ok true ∧
    verify_master_password (setup_master_password fs password salt).2 wrong = .ok false ∧
    verify_master_password fs2 password = .ok false := by
  refine ⟨?_, ?_, ?_⟩
  · simp only [verify_master_password, verifyCore, setup_master_password,
      hash_password]
    rw [← hsalt, List.take_left, List.drop_left, ← derive_key_length password salt,
      List.take_length]
    simp
  · simp only [verify_master_password, verifyCore, setup_master_password,
      hash_password]
    rw [← hsalt, List.take_left, List.drop_left, ← derive_key_length password salt,
      List.take_length]
    have hb : (derive_key wrong salt == derive_key password salt) = false :=
      beq_eq_false_iff_ne.mpr hmismatch
    rw [hb]
  · simp [verify_master_password, verifyCore, hmissing]

theorem C4_verify_behavior_witness :
    (List.replicate 16 5 : List Nat).length = 16 ∧
    derive_key [113] (List.replicate 16 5) ≠ derive_key [112] (List.replicate 16 5) ∧
    verify_master_password (setup_master_password ⟨none, none⟩ [112] (List.replicate 16 5)).2 [112] = .ok true ∧
    verify_master_password (setup_master_password ⟨none, none⟩ [112] (List.replicate 16 5)).2 [113] = .ok false ∧
    verify_master_password ⟨none, some [1]⟩ [112] = .ok false := by
  have h := C4_verify_behavior ⟨none, none⟩ ⟨none, some [1]⟩ [112] [113]
    (List.replicate 16 5) (by decide) (by decide) rfl
  exact ⟨by decide, by decide, h.1, h.2.1, h.2.2⟩

/-- C2: for every plaintext P and 32-byte key K, decrypting the blob produced
by `encrypt_data(P, K)` with the same key returns exactly P (the nonce
argument stands for the fresh `os.urandom(12)` draw, hence its length
hypothesis). -/
theorem C2_encrypt_decrypt_roundtrip (P K nonce : List Nat)
    (_hK : K.length = 32) (hn : nonce.length = 12) :
    decrypt_data (encrypt_data P K nonce) K = .ok (some P) := by
  unfold decrypt_data
  rw [decrypt_dataCore_encrypt_data P K nonce hn]

theorem C2_encrypt_decrypt_roundtrip_witness :
    (derive_key [112] (List.replicate 16 5)).length = 32 ∧
    (List.replicate 12 3 : List Nat).length = 12 ∧
    decrypt_data (encrypt_data [104, 111, 108, 97] (derive_key [112] (List.replicate 16 5)) (List.replicate 12 3)) (derive_key [112] (List.replicate 16 5)) = .ok (some [104, 111, 108, 97]) := by
  have h := C2_encrypt_decrypt_roundtrip [104, 111, 108, 97]
    (derive_key [112] (List.replicate 16 5)) (List.replicate 12 3)
    (derive_key_length _ _) (by decide)
  exact ⟨derive_key_length _ _, by decide, h⟩

set_option maxRecDepth 40000 in
/-- C1 (code bug exhibit): `_load_passwords` masks a decryption failure as an
empty vault.  With the store file holding a non-empty record set encrypted
under the key derived from the correct password, opening it with the key
derived from a wrong password returns the empty dict — an apparently
successful empty vault — instead of propagating a fatal open error as the
specification requires.  Loading with the correct key shows the data was
there. -/
theorem C1_load_masks_decrypt_failure :
    load_passwords ⟨some (List.replicate 16 5 ++ derive_key [112] (List.replicate 16 5)), some (encrypt_password (serializeDict [([103, 95, 109], Entry.mk [103] [109] (encrypt_password [115] (derive_key [112] (List.replicate 16 5)) (List.replicate 12 2)) [50])]) (derive_key [112] (List.replicate 16 5)) (List.replicate 12 1))⟩ (derive_key [113] (List.replicate 16 5)) = [] ∧
    load_passwords ⟨some (List.replicate 16 5 ++ derive_key [112] (List.replicate 16 5)), some (encrypt_password (serializeDict [([103, 95, 109], Entry.mk [103] [109] (encrypt_password [115] (derive_key [112] (List.replicate 16 5)) (List.replicate 12 2)) [50])]) (derive_key [112] (List.replicate 16 5)) (List.replicate 12 1))⟩ (derive_key [112] (List.replicate 16 5)) = [([103, 95, 109], Entry.mk [103] [109] (encrypt_password [115] (derive_key [112] (List.replicate 16 5)) (List.replicate 12 2)) [50])] ∧
    ([([103, 95, 109], Entry.mk [103] [109] (encrypt_password [115] (derive_key [112] (List.replicate 16 5)) (List.replicate 12 2)) [50])] : Dict) ≠ [] := by
  refine ⟨by decide, by decide, by decide⟩

/-- C6 (code bug exhibit): `_save_passwords` does not write to a temporary
file and atomically rename it — its file-operation trace contains no rename
and begins by opening `passwords.db` itself in truncating "wb" mode, so the
crash point immediately after the open leaves the store file empty: neither
the prior content nor the new content.  This contradicts the claimed
write-to-temp-then-atomic-rename strategy. -/
theorem C6_save_truncates_in_place (st : PMState) (fs : FS)
    (nonce oldContent : List Nat) (hdb : fs.db = some oldContent)
    (hne : oldContent ≠ []) :
    ((savePasswordsOps st nonce).all fun op =>
        match op with
        | FsOp.rename _ _ => false
        | _ => true) = true ∧
    (savePasswordsOps st nonce).head? = some (FsOp.openTrunc db_file) ∧
    (applyOps fs ((savePasswordsOps st nonce).take 1)).db = some [] ∧
    (applyOps fs ((savePasswordsOps st nonce).take 1)).db ≠ fs.db := by
  refine ⟨by simp [savePasswordsOps], by simp [savePasswordsOps], ?_, ?_⟩
  · simp [savePasswordsOps, applyOps, applyOp]
  · have h1 : (applyOps fs ((savePasswordsOps st nonce).take 1)).db = some [] := by
      simp [savePasswordsOps, applyOps, applyOp]
    rw [h1, hdb]
    intro h
    injection h with h
    exact hne h.symm

theorem C6_save_truncates_in_place_witness :
    (FS.mk none (some [9])).db = some [9] ∧ ([9] : List Nat) ≠ [] ∧
    (applyOps ⟨none, some [9]⟩ ((savePasswordsOps ⟨[7], []⟩ (List.replicate 12 0)).take 1)).db = some [] ∧
    (applyOps ⟨none, some [9]⟩ ((savePasswordsOps ⟨[7], []⟩ (List.replicate 12 0)).take 1)).db ≠ (FS.mk none (some [9])).db := by
  have h := C6_save_truncates_in_place ⟨[7], []⟩ ⟨none, some [9]⟩
    (List.replicate 12 0) [9] rfl (by decide)
  exact ⟨rfl, by decide, h.2.2.1, h.2.2.2⟩

theorem shiftLeft_xor_distrib (a b n : Nat) :
    (a ^^^ b) <<< n = (a <<< n) ^^^ (b <<< n) := by
  apply Nat.eq_of_testBit_eq
  intro i
  simp only [Nat.testBit_shiftLeft, Nat.testBit_xor, Bool.and_xor_distrib_left]

theorem tagCore_lt (m : List Nat) (p : Nat) (hm : IsBytes m) :
    tagCore p m < 2 ^ 128 := by
  induction m generalizing p with
  | nil =>
    simp only [tagCore]
    exact Nat.pos_pow_of_pos 128 (by omega)
  | cons b t ih =>
    have hb : b < 256 := hm b (by simp)
    have h1 : b <<< (8 * (p % 16)) < 2 ^ 128 := by
      rw [Nat.shiftLeft_eq]
      have h2 : 8 * (p % 16) ≤ 120 := by omega
      calc b * 2 ^ (8 * (p % 16))
          < 256 * 2 ^ (8 * (p % 16)) :=
            Nat.mul_lt_mul_of_pos_right hb (Nat.pos_pow_of_pos _ (by omega))
        _ ≤ 256 * 2 ^ 120 :=
            Nat.mul_le_mul (Nat.le_refl 256) (Nat.pow_le_pow_right (by omega) h2)
        _ = 2 ^ 128 := by norm_num
    exact Nat.xor_lt_two_pow h1 (ih (p + 1) (fun x hx => hm x (by simp [hx])))

theorem tagCore_set (m : List Nat) : ∀ (p i d : Nat), i < m.length →
    tagCore p (m.set i (m.getD i 0 ^^^ d)) =
      tagCore p m ^^^ (d <<< (8 * ((p + i) % 16))) := by
  induction m with
  | nil => intro p i d h; simp at h
  | cons b t ih =>
    intro p i d h
    cases i with
    | zero =>
      simp only [List.getD_cons_zero, List.set_cons_zero, tagCore, Nat.add_zero]
      rw [shiftLeft_xor_distrib, Nat.xor_assoc,
        Nat.xor_comm (d <<< (8 * (p % 16))) (tagCore (p + 1) t), ← Nat.xor_assoc]
    | succ i =>
      simp only [List.getD_cons_succ, List.set_cons_succ, tagCore]
      rw [ih (p + 1) i d (by simpa using h), ← Nat.xor_assoc,
        show p + 1 + i = p + (i + 1) from by omega]

theorem toLE_inj : ∀ (k a b : Nat), a < 256 ^ k → b < 256 ^ k →
    toLE k a = toLE k b → a = b := by
  intro k
  induction k with
  | zero =>
    intro a b ha hb _
    simp only [Nat.pow_zero] at ha hb
    omega
  | succ k ih =>
    intro a b ha hb h
    simp only [toLE, List.cons.injEq] at h
    have hda : a / 256 < 256 ^ k := by
      rw [Nat.div_lt_iff_lt_mul (by omega : 0 < 256)]
      calc a < 256 ^ (k + 1) := ha
        _ = 256 ^ k * 256 := Nat.pow_succ 256 k
    have hdb : b / 256 < 256 ^ k := by
      rw [Nat.div_lt_iff_lt_mul (by omega : 0 < 256)]
      calc b < 256 ^ (k + 1) := hb
        _ = 256 ^ k * 256 := Nat.pow_succ 256 k
    have h2 := ih (a / 256) (b / 256) hda hdb h.2
    omega

theorem xor_flip_ne (a d : Nat) (hd : d ≠ 0) : a ^^^ d ≠ a := by
  intro h
  apply hd
  have h2 : a ^^^ d = a ^^^ 0 := by rw [Nat.xor_zero]; exact h
  exact Nat.xor_right_inj.mp h2

theorem isBytes_set {l : List Nat} {i v : Nat} (hl : IsBytes l)
    (hv : v < 256) : IsBytes (l.set i v) := by
  intro x hx
  rcases List.mem_or_eq_of_mem_set hx with h | h
  · exact hl x h
  · omega

theorem getD_lt_of_isBytes {l : List Nat} {i : Nat} (hl : IsBytes l)
    (hi : i < l.length) : l.getD i 0 < 256 := by
  rw [List.getD_eq_getElem l 0 hi]
  exact hl _ (List.getElem_mem hi)

theorem tagCore_flip_ne (key N : List Nat) (i j : Nat)
    (hi : i < N.length) :
    tagCore 0 (key ++ N.set i (N.getD i 0 ^^^ (1 <<< j))) ≠ tagCore 0 (key ++ N) := by
  have hset : key ++ N.set i (N.getD i 0 ^^^ (1 <<< j))
      = (key ++ N).set (key.length + i)
          ((key ++ N).getD (key.length + i) 0 ^^^ (1 <<< j)) := by
    rw [List.set_append_right _ _ (by omega),
      List.getD_append_right _ _ _ _ (by omega)]
    have hidx : key.length + i - key.length = i := by omega
    rw [hidx]
  rw [hset, tagCore_set _ 0 _ _ (by simp [List.length_append]; omega)]
  apply xor_flip_ne
  rw [Nat.one_shiftLeft, Nat.shiftLeft_eq]
  have hpos : 0 < 2 ^ j * 2 ^ (8 * ((0 + (key.length + i)) % 16)) := by positivity
  omega

theorem gcmTag_flip_ne (key N : List Nat) (i j : Nat)
    (hkey : IsBytes key) (hN : IsBytes N) (hi : i < N.length) (hj : j < 8)
    (a b c d : List Nat)
    (hab : a ++ b = N.set i (N.getD i 0 ^^^ (1 <<< j))) (hcd : c ++ d = N) :
    gcmTag key a b ≠ gcmTag key c d := by
  have h256 : (256 : Nat) ^ 16 = 2 ^ 128 := by norm_num
  have hX : IsBytes (N.set i (N.getD i 0 ^^^ (1 <<< j))) := by
    apply isBytes_set hN
    apply xor_byte_lt (getD_lt_of_isBytes hN hi)
    rw [Nat.one_shiftLeft]
    calc 2 ^ j < 2 ^ 8 := Nat.pow_lt_pow_right (by omega) hj
      _ = 256 := by norm_num
  intro heq
  unfold gcmTag gcmTagVal at heq
  rw [List.append_assoc, hab, List.append_assoc, hcd] at heq
  have h1 := toLE_inj 16 _ _
    (by rw [h256]; exact tagCore_lt _ 0 (append_isBytes hkey hX))
    (by rw [h256]; exact tagCore_lt _ 0 (append_isBytes hkey hN)) heq
  exact tagCore_flip_ne key N i j hi h1

theorem decrypt_flip_fails_core (key nonce ct : List Nat) (i j : Nat)
    (hkey : IsBytes key) (hn : IsBytes nonce) (hct : IsBytes ct)
    (hlen : nonce.length = 12) (hi : i < 12 + ct.length + 16) (hj : j < 8) :
    decrypt_dataCore (flipBit ((nonce ++ ct) ++ gcmTag key nonce ct) i j) key
      = none := by
  have hN : IsBytes (nonce ++ ct) := append_isBytes hn hct
  have hNlen : (nonce ++ ct).length = 12 + ct.length := by simp [hlen]
  have htglen : (gcmTag key nonce ct).length = 16 := gcmTag_length key nonce ct
  by_cases hzone : i < (nonce ++ ct).length
  · -- the flip lands in the nonce or the ciphertext: the recomputed tag moves
    have hflip : flipBit ((nonce ++ ct) ++ gcmTag key nonce ct) i j
        = (nonce ++ ct).set i ((nonce ++ ct).getD i 0 ^^^ (1 <<< j))
            ++ gcmTag key nonce ct := by
      unfold flipBit
      rw [List.set_append_left _ _ hzone, List.getD_append _ _ _ _ hzone]
    rw [hflip]
    have hXlen : ((nonce ++ ct).set i ((nonce ++ ct).getD i 0 ^^^ (1 <<< j))).length
        = 12 + ct.length := by rw [List.length_set]; exact hNlen
    have h1 : (((nonce ++ ct).set i ((nonce ++ ct).getD i 0 ^^^ (1 <<< j)))
          ++ gcmTag key nonce ct).take 12
        = ((nonce ++ ct).set i ((nonce ++ ct).getD i 0 ^^^ (1 <<< j))).take 12 := by
      rw [List.take_append_eq_append_take, Nat.sub_eq_zero_of_le (by omega),
        List.take_zero, List.append_nil]
    have h2 : (((nonce ++ ct).set i ((nonce ++ ct).getD i 0 ^^^ (1 <<< j)))
          ++ gcmTag key nonce ct).drop 12
        = ((nonce ++ ct).set i ((nonce ++ ct).getD i 0 ^^^ (1 <<< j))).drop 12
            ++ gcmTag key nonce ct := by
      rw [List.drop_append_eq_append_drop, Nat.sub_eq_zero_of_le (by omega),
        List.drop_zero]
    have hdroplen : (((nonce ++ ct).set i ((nonce ++ ct).getD i 0 ^^^ (1 <<< j))).drop 12).length
        = ct.length := by rw [List.length_drop, hXlen]; omega
    simp only [decrypt_dataCore, aesgcmDecrypt]
    rw [h1, h2]
    have hblen : (((nonce ++ ct).set i ((nonce ++ ct).getD i 0 ^^^ (1 <<< j))).drop 12
        ++ gcmTag key nonce ct).length = ct.length + 16 := by
      rw [List.length_append, hdroplen, htglen]
    rw [if_neg (by omega)]
    have h4 : (((nonce ++ ct).set i ((nonce ++ ct).getD i 0 ^^^ (1 <<< j))).drop 12
        ++ gcmTag key nonce ct).length - 16
        = (((nonce ++ ct).set i ((nonce ++ ct).getD i 0 ^^^ (1 <<< j))).drop 12).length := by
      rw [hblen, hdroplen]
      omega
    rw [h4, List.take_left, List.drop_left]
    rw [if_neg (gcmTag_flip_ne key (nonce ++ ct) i j hkey hN hzone hj _ _ nonce ct
      (List.take_append_drop 12 _) rfl)]
  · -- the flip lands in the stored tag: the stored tag moves
    have hq : i - (nonce ++ ct).length < 16 := by omega
    have hflip : flipBit ((nonce ++ ct) ++ gcmTag key nonce ct) i j
        = (nonce ++ ct) ++ (gcmTag key nonce ct).set (i - (nonce ++ ct).length)
            ((gcmTag key nonce ct).getD (i - (nonce ++ ct).length) 0 ^^^ (1 <<< j)) := by
      unfold flipBit
      rw [List.set_append_right _ _ (by omega),
        List.getD_append_right _ _ _ _ (by omega)]
    rw [hflip]
    have htgXlen : ((gcmTag key nonce ct).set (i - (nonce ++ ct).length)
        ((gcmTag key nonce ct).getD (i - (nonce ++ ct).length) 0 ^^^ (1 <<< j))).length
        = 16 := by rw [List.length_set]; exact htglen
    have h1 : ((nonce ++ ct) ++ (gcmTag key nonce ct).set (i - (nonce ++ ct).length)
          ((gcmTag key nonce ct).getD (i - (nonce ++ ct).length) 0 ^^^ (1 <<< j))).take 12
        = nonce := by
      rw [List.take_append_eq_append_take, Nat.sub_eq_zero_of_le (by omega),
        List.take_zero, List.append_nil, List.take_append_eq_append_take,
        Nat.sub_eq_zero_of_le (by omega), List.take_zero, List.append_nil,
        List.take_of_length_le (by omega)]
    have h2 : ((nonce ++ ct) ++ (gcmTag key nonce ct).set (i - (nonce ++ ct).length)
          ((gcmTag key nonce ct).getD (i - (nonce ++ ct).length) 0 ^^^ (1 <<< j))).drop 12
        = ct ++ (gcmTag key nonce ct).set (i - (nonce ++ ct).length)
            ((gcmTag key nonce ct).getD (i - (nonce ++ ct).length) 0 ^^^ (1 <<< j)) := by
      rw [List.drop_append_eq_append_drop, Nat.sub_eq_zero_of_le (by omega),
        List.drop_zero, List.drop_left' hlen]
    simp only [decrypt_dataCore, aesgcmDecrypt]
    rw [h1, h2]
    have hblen : (ct ++ (gcmTag key nonce ct).set (i - (nonce ++ ct).length)
        ((gcmTag key nonce ct).getD (i - (nonce ++ ct).length) 0 ^^^ (1 <<< j))).length
        = ct.length + 16 := by rw [List.length_append, htgXlen]
    rw [if_neg (by omega)]
    have h4 : (ct ++ (gcmTag key nonce ct).set (i - (nonce ++ ct).length)
        ((gcmTag key nonce ct).getD (i - (nonce ++ ct).length) 0 ^^^ (1 <<< j))).length - 16
        = ct.length := by rw [hblen]; omega
    rw [h4, List.take_left', List.drop_left']
    · rw [if_neg]
      intro heq
      have hsame : gcmTag key nonce ct = (gcmTag key nonce ct).set (i - (nonce ++ ct).length)
          ((gcmTag key nonce ct).getD (i - (nonce ++ ct).length) 0 ^^^ (1 <<< j)) := heq
      have hgd := congrArg (fun l => l.getD (i - (nonce ++ ct).length) 0) hsame
      simp only at hgd
      have hq2 : i - (nonce ++ ct).length < (gcmTag key nonce ct).length := by
        rw [htglen]; exact hq
      rw [List.getD_eq_getElem _ 0 hq2] at hgd
      rw [List.getD_eq_getElem _ 0 (by rw [List.length_set]; exact hq2)] at hgd
      rw [List.getElem_set_self] at hgd
      have hne : (1 : Nat) <<< j ≠ 0 := by
        rw [Nat.one_shiftLeft]
        have : 0 < 2 ^ j := by positivity
        omega
      exact xor_flip_ne _ _ hne hgd.symm
    · rfl
    · rfl

set_option maxRecDepth 40000 in
/-- C3 counterexample: the claim says a failing authentication tag surfaces an
`AuthenticationFailure` error to the caller of `decrypt_data`.  On a concrete
tampered blob the library layer does raise `InvalidTag`, but the bare
`except` inside `decrypt_data` swallows it: the call returns Python `None`
(`.ok none`), not a propagated error. -/
theorem C3_counterexample_decrypt_swallows_invalid_tag :
    aesgcmDecrypt (derive_key [112] (List.replicate 16 5))
        ((flipBit (encrypt_data [104] (derive_key [112] (List.replicate 16 5)) (List.replicate 12 3)) 12 0).take 12)
        ((flipBit (encrypt_data [104] (derive_key [112] (List.replicate 16 5)) (List.replicate 12 3)) 12 0).drop 12)
      = .error PyErr.invalidTag ∧
    decrypt_data (flipBit (encrypt_data [104] (derive_key [112] (List.replicate 16 5)) (List.replicate 12 3)) 12 0) (derive_key [112] (List.replicate 16 5)) = .ok none ∧
    decrypt_data (flipBit (encrypt_data [104] (derive_key [112] (List.replicate 16 5)) (List.replicate 12 3)) 12 0) (derive_key [112] (List.replicate 16 5)) ≠ .error PyErr.invalidTag := by
  refine ⟨by rfl, by rfl, by simp [decrypt_data]⟩

/-- C3 (amended): when the authentication tag does not verify, `decrypt_data`
signals the failure to its caller by returning `None` (the bare `except`
catches the library's `InvalidTag`), never returning altered, partial or
garbage plaintext; in particular flipping any single bit of an encrypted blob
(nonce, ciphertext or tag region) makes decryption return `None`. -/
theorem C3_tamper_detection_returns_none (key nonce pt : List Nat) (i j : Nat)
    (hkey : IsBytes key) (hn : IsBytes nonce) (hpt : IsBytes pt)
    (hlen : nonce.length = 12) (hi : i < (encrypt_data pt key nonce).length)
    (hj : j < 8) :
    decrypt_data (flipBit (encrypt_data pt key nonce) i j) key = .ok none ∧
    ∀ blob : List Nat,
      aesgcmDecrypt key (blob.take 12) (blob.drop 12) = .error PyErr.invalidTag →
      decrypt_data blob key = .ok none := by
  constructor
  · have hshape : encrypt_data pt key nonce
        = (nonce ++ List.zipWith (· ^^^ ·) pt (gcmKeystream key nonce pt.length))
            ++ gcmTag key nonce (List.zipWith (· ^^^ ·) pt (gcmKeystream key nonce pt.length)) := by
      simp [encrypt_data, aesgcmEncrypt, List.append_assoc]
    have hlen2 : (encrypt_data pt key nonce).length
        = 12 + (List.zipWith (· ^^^ ·) pt (gcmKeystream key nonce pt.length)).length + 16 := by
      rw [hshape]
      simp only [List.length_append, hlen, gcmTag_length]
    have hmain := decrypt_flip_fails_core key nonce
      (List.zipWith (· ^^^ ·) pt (gcmKeystream key nonce pt.length)) i j hkey hn
      (zipWith_xor_isBytes hpt (gcmKeystream_isBytes key nonce pt.length))
      hlen (by rw [hlen2] at hi; exact hi) hj
    unfold decrypt_data
    rw [hshape, hmain]
  · intro blob herr
    simp only [decrypt_data, decrypt_dataCore]
    rw [herr]

theorem C3_tamper_detection_returns_none_witness :
    IsBytes (derive_key [112] (List.replicate 16 5)) ∧
    IsBytes (List.replicate 12 3) ∧ IsBytes [104, 105] ∧
    (List.replicate 12 3 : List Nat).length = 12 ∧
    13 < (encrypt_data [104, 105] (derive_key [112] (List.replicate 16 5)) (List.replicate 12 3)).length ∧
    2 < 8 ∧
    decrypt_data (flipBit (encrypt_data [104, 105] (derive_key [112] (List.replicate 16 5)) (List.replicate 12 3)) 13 2) (derive_key [112] (List.replicate 16 5)) = .ok none := by
  have h := C3_tamper_detection_returns_none (derive_key [112] (List.replicate 16 5))
    (List.replicate 12 3) [104, 105] 13 2 (by decide) (by decide) (by decide)
    (by decide) (by decide) (by decide)
  exact ⟨by decide, by decide, by decide, by decide, by decide, by decide, h.1⟩

theorem b64encode_isBytes {l : List Nat} (hl : IsBytes l) :
    IsBytes (b64encode l) := by
  induction l using b64encode.induct with
  | case1 => intro x hx; simp [b64encode] at hx
  | case2 a =>
    have ha : a < 256 := hl a (by simp)
    intro x hx
    simp only [b64encode, List.mem_cons, List.not_mem_nil, or_false] at hx
    rcases hx with h | h | h | h
    all_goals first
      | (subst h; exact Nat.lt_of_lt_of_le (b64Char_lt _ (by omega)) (by omega))
      | (subst h; omega)
  | case3 a b =>
    have ha : a < 256 := hl a (by simp)
    have hb : b < 256 := hl b (by simp)
    intro x hx
    simp only [b64encode, List.mem_cons, List.not_mem_nil, or_false] at hx
    rcases hx with h | h | h | h
    all_goals first
      | (subst h; exact Nat.lt_of_lt_of_le (b64Char_lt _ (by omega)) (by omega))
      | (subst h; omega)
  | case4 a b c rest ih =>
    have ha : a < 256 := hl a (by simp)
    have hb : b < 256 := hl b (by simp)
    have hc : c < 256 := hl c (by simp)
    have hrest : IsBytes rest := fun x hx => hl x (by simp [hx])
    intro x hx
    simp only [b64encode, List.mem_cons] at hx
    rcases hx with h | h | h | h | h
    · subst h; exact Nat.lt_of_lt_of_le (b64Char_lt _ (by omega)) (by omega)
    · subst h; exact Nat.lt_of_lt_of_le (b64Char_lt _ (by omega)) (by omega)
    · subst h; exact Nat.lt_of_lt_of_le (b64Char_lt _ (by omega)) (by omega)
    · subst h; exact Nat.lt_of_lt_of_le (b64Char_lt _ (by omega)) (by omega)
    · exact ih hrest x h

theorem dictContains_append_false {d : Dict} {k k' : List Nat} {v : Entry}
    (h1 : dictContains d k' = false) (h2 : k ≠ k') :
    dictContains (d ++ [(k, v)]) k' = false := by
  unfold dictContains at h1 ⊢
  rw [List.any_append, h1]
  simp [h2]

theorem readdLoop_spec (ent : Nat → List Nat × List Nat × List Nat)
    (hent : ∀ m, (ent m).2.1.length = 12 ∧ IsBytes (ent m).2.1) (K : List Nat) :
    ∀ (T : List (List Nat × List Nat × Option (List Nat) × List Nat))
      (d0 : Dict) (fs : FS) (i : Nat),
    (∀ t ∈ T, t.2.2.1.isSome = true) →
    (∀ t ∈ T, dictContains d0 (pyId t.1 t.2.1) = false) →
    T.Pairwise (fun a b => pyId a.1 a.2.1 ≠ pyId b.1 b.2.1) →
    (readdLoop ent ⟨K, d0⟩ fs i T).1 = ⟨K, d0 ++ rotatedDict K ent i T⟩ ∧
    (T = [] → (readdLoop ent ⟨K, d0⟩ fs i T).2 = fs) ∧
    (T ≠ [] → ∃ n2 : List Nat, n2.length = 12 ∧ IsBytes n2 ∧
      (readdLoop ent ⟨K, d0⟩ fs i T).2 = { fs with db := some (encrypt_password (serializeDict (d0 ++ rotatedDict K ent i T)) K n2) }) := by
  intro T
  induction T with
  | nil =>
    intro d0 fs i _ _ _
    exact ⟨by simp [readdLoop, rotatedDict], fun _ => rfl, fun h => absurd rfl h⟩
  | cons t rest ih =>
    intro d0 fs i hsome habs hpw
    obtain ⟨s, u, pw?, dt⟩ := t
    have hiss : pw?.isSome = true := hsome (s, u, pw?, dt) (List.mem_cons_self _ _)
    obtain ⟨pw, hpw0⟩ := Option.isSome_iff_exists.mp hiss
    subst hpw0
    have hne0 : pyId s u ≠ [] → True := fun _ => trivial
    have hhead : ∀ t2 ∈ rest, pyId s u ≠ pyId t2.1 t2.2.1 :=
      (List.pairwise_cons.mp hpw).1
    have hpw' := (List.pairwise_cons.mp hpw).2
    have hsome' : ∀ t2 ∈ rest, t2.2.2.1.isSome = true :=
      fun t2 ht => hsome t2 (by simp [ht])
    have habsd : dictContains d0 (pyId s u) = false :=
      habs (s, u, some pw, dt) (List.mem_cons_self _ _)
    simp only [readdLoop]
    simp only [add_password_eq]
    rw [dictSet_absent _ habsd]
    have habs' : ∀ t2 ∈ rest,
        dictContains (d0 ++ [(pyId s u, Entry.mk s u (encrypt_password pw K (ent i).1) (ent i).2.2)]) (pyId t2.1 t2.2.1) = false :=
      fun t2 ht => dictContains_append_false (habs t2 (by simp [ht])) (hhead t2 ht)
    obtain ⟨ih1, ih2, ih3⟩ := ih
      (d0 ++ [(pyId s u, Entry.mk s u (encrypt_password pw K (ent i).1) (ent i).2.2)])
      { fs with db := some (encrypt_password (serializeDict (d0 ++ [(pyId s u, Entry.mk s u (encrypt_password pw K (ent i).1) (ent i).2.2)])) K (ent i).2.1) }
      (i + 1) hsome' habs' hpw'
    refine ⟨?_, fun h => absurd h (by simp), fun _ => ?_⟩
    · rw [ih1]
      simp only [rotatedDict, List.append_assoc, List.singleton_append]
    · cases rest with
      | nil =>
        refine ⟨(ent i).2.1, (hent i).1, (hent i).2, ?_⟩
        have h2 := ih2 rfl
        rw [h2]
        simp only [rotatedDict, List.append_assoc, List.singleton_append]
      | cons r2 rest2 =>
        obtain ⟨n2, hn12, hnb, heq⟩ := ih3 (by simp)
        refine ⟨n2, hn12, hnb, ?_⟩
        rw [heq]
        simp only [rotatedDict, List.append_assoc, List.singleton_append]

theorem rotatedDict_length (Knew Kold : List Nat)
    (ent : Nat → List Nat × List Nat × List Nat) :
    ∀ (P : Dict) (i : Nat),
    (∀ kv ∈ P, (decrypt_password kv.2.password Kold).isSome = true) →
    (rotatedDict Knew ent i (P.map (fun kv => (kv.2.service, kv.2.username, decrypt_password kv.2.password Kold, kv.2.date)))).length = P.length := by
  intro P
  induction P with
  | nil => intro i _; rfl
  | cons kv rest ih =>
    intro i hsome
    have hiss := hsome kv (List.mem_cons_self _ _)
    obtain ⟨pw, hpw⟩ := Option.isSome_iff_exists.mp hiss
    simp only [List.map_cons, hpw, rotatedDict, List.length_cons]
    rw [ih (i + 1) (fun kv2 h2 => hsome kv2 (by simp [h2]))]

theorem rotatedDict_get (Knew Kold : List Nat)
    (ent : Nat → List Nat × List Nat × List Nat)
    (hent : ∀ m, (ent m).1.length = 12 ∧ IsBytes (ent m).1) :
    ∀ (P : Dict) (i : Nat),
    (∀ kv ∈ P, kv.1 = pyId kv.2.service kv.2.username) →
    (∀ kv ∈ P, (decrypt_password kv.2.password Kold).isSome = true) →
    (P.map Prod.fst).Nodup →
    ∀ kv ∈ P, ∃ e : Entry,
      dictGet (rotatedDict Knew ent i (P.map (fun kv2 => (kv2.2.service, kv2.2.username, decrypt_password kv2.2.password Kold, kv2.2.date)))) kv.1 = some e ∧
      decrypt_password e.password Knew = decrypt_password kv.2.password Kold := by
  intro P
  induction P with
  | nil => intro i _ _ _ kv hkv; simp at hkv
  | cons kv0 rest ih =>
    intro i hkeys hsome hnodup kv hkv
    have hiss := hsome kv0 (List.mem_cons_self _ _)
    obtain ⟨pw0, hpw0⟩ := Option.isSome_iff_exists.mp hiss
    have hk0 : kv0.1 = pyId kv0.2.service kv0.2.username :=
      hkeys kv0 (List.mem_cons_self _ _)
    simp only [List.map_cons, hpw0, rotatedDict]
    rcases List.mem_cons.mp hkv with h | h
    · subst h
      refine ⟨Entry.mk kv.2.service kv.2.username (encrypt_password pw0 Knew (ent i).1) (ent i).2.2, ?_, ?_⟩
      · rw [← hk0]
        exact dictGet_cons_self kv.1 _ _
      · rw [hpw0]
        exact decrypt_password_encrypt_password pw0 Knew (ent i).1
          (decrypt_password_isBytes hpw0) (hent i).2 (hent i).1
    · rw [List.map_cons] at hnodup
      have hkne : kv.1 ≠ kv0.1 := by
        intro hcontra
        have h0 : kv0.1 ∈ rest.map Prod.fst :=
          hcontra ▸ List.mem_map_of_mem Prod.fst h
        exact (List.nodup_cons.mp hnodup).1 h0
      rw [← hk0, dictGet_cons_ne kv0.1 kv.1 _ _ (fun hh => hkne hh.symm)]
      exact ih (i + 1) (fun kv2 h2 => hkeys kv2 (by simp [h2]))
        (fun kv2 h2 => hsome kv2 (by simp [h2]))
        ((List.nodup_cons.mp hnodup).2) kv h

theorem rotatedDict_bytes (Knew Kold : List Nat)
    (ent : Nat → List Nat × List Nat × List Nat)
    (hent : ∀ m, IsBytes (ent m).1 ∧ IsBytes (ent m).2.2) :
    ∀ (P : Dict) (i : Nat),
    (∀ kv ∈ P, IsBytes kv.2.service ∧ IsBytes kv.2.username) →
    ∀ kv2 ∈ rotatedDict Knew ent i (P.map (fun kv => (kv.2.service, kv.2.username, decrypt_password kv.2.password Kold, kv.2.date))),
      IsBytes kv2.1 ∧ EntryBytes kv2.2 := by
  intro P
  induction P with
  | nil => intro i _ kv2 h2; simp [rotatedDict] at h2
  | cons kv rest ih =>
    intro i hb kv2 h2
    simp only [List.map_cons] at h2
    cases hpw : decrypt_password kv.2.password Kold with
    | none =>
      rw [hpw] at h2
      simp only [rotatedDict] at h2
      exact ih (i + 1) (fun kv3 h3 => hb kv3 (by simp [h3])) kv2 h2
    | some pw =>
      rw [hpw] at h2
      simp only [rotatedDict, List.mem_cons] at h2
      rcases h2 with h2 | h2
      · subst h2
        obtain ⟨hs, hu⟩ := hb kv (List.mem_cons_self _ _)
        refine ⟨?_, hs, hu, ?_, (hent i).2⟩
        · show IsBytes (pyId kv.2.service kv.2.username)
          unfold pyId
          refine append_isBytes (append_isBytes hs ?_) hu
          intro x hx
          simp only [List.mem_singleton] at hx
          omega
        · exact b64encode_isBytes (encrypt_data_isBytes Knew
            (decrypt_password_isBytes hpw) (hent i).1)
      · exact ih (i + 1) (fun kv3 h3 => hb kv3 (by simp [h3])) kv2 h2

theorem load_encrypted (D : Dict) (K n2 : List Nat) (fsm : Option (List Nat))
    (hD : ∀ kv ∈ D, IsBytes kv.1 ∧ EntryBytes kv.2)
    (hn2 : n2.length = 12) (hbn2 : IsBytes n2) :
    load_passwords ⟨fsm, some (encrypt_password (serializeDict D) K n2)⟩ K = D := by
  have hcontent : encrypt_password (serializeDict D) K n2 ≠ [] := by
    unfold encrypt_password
    apply b64encode_ne_nil
    intro h
    have := congrArg List.length h
    simp [encrypt_data, hn2] at this
  simp only [load_passwords]
  rw [if_neg hcontent]
  rw [decrypt_password_encrypt_password _ _ _ (serializeDict_isBytes hD) hbn2 hn2]
  simp [deserializeDict_serializeDict, serializeDict_ne_nil D]

theorem change_master_password_eq (st : PMState) (fs : FS)
    (new_password newSalt : List Nat)
    (ent : Nat → List Nat × List Nat × List Nat) :
    change_master_password st fs new_password newSalt ent
      = (true,
         (readdLoop ent ⟨derive_key new_password ((newSalt ++ derive_key new_password newSalt).take 16), []⟩ { fs with masterKey := some (newSalt ++ derive_key new_password newSalt) } 0 (get_all_passwords st)).1,
         (readdLoop ent ⟨derive_key new_password ((newSalt ++ derive_key new_password newSalt).take 16), []⟩ { fs with masterKey := some (newSalt ++ derive_key new_password newSalt) } 0 (get_all_passwords st)).2) := by
  rfl

/-- C7: rotation preserves all data.  For a well-formed vault of N records
(keys match `pyId`, keys distinct, every stored password decrypts under the
current key, fields are byte strings), after `change_master_password` and
reopening the store with the key derived from the new password, all N records
are present, each stored password decrypts to its original plaintext, and
verifying a password whose derived key differs (in particular the old master
password) now fails. -/
theorem C7_rotation_preserves_records (st : PMState) (fs : FS)
    (old_password new_password newSalt : List Nat)
    (ent : Nat → List Nat × List Nat × List Nat)
    (hsalt : newSalt.length = 16)
    (hkeys : ∀ kv ∈ st.passwords, kv.1 = pyId kv.2.service kv.2.username)
    (hsome : ∀ kv ∈ st.passwords, (decrypt_password kv.2.password st.master_key).isSome = true)
    (hnodup : (st.passwords.map Prod.fst).Nodup)
    (hbytes : ∀ kv ∈ st.passwords, IsBytes kv.2.service ∧ IsBytes kv.2.username)
    (hent : ∀ m, (ent m).1.length = 12 ∧ IsBytes (ent m).1 ∧ (ent m).2.1.length = 12 ∧ IsBytes (ent m).2.1 ∧ IsBytes (ent m).2.2)
    (hne : st.passwords ≠ [])
    (hold : derive_key old_password newSalt ≠ derive_key new_password newSalt) :
    (change_master_password st fs new_password newSalt ent).1 = true ∧
    get_master_key (change_master_password st fs new_password newSalt ent).2.2 new_password = some (derive_key new_password newSalt) ∧
    (load_passwords (change_master_password st fs new_password newSalt ent).2.2 (derive_key new_password newSalt)).length = st.passwords.length ∧
    (∀ kv ∈ st.passwords, ∃ e : Entry,
      dictGet (load_passwords (change_master_password st fs new_password newSalt ent).2.2 (derive_key new_password newSalt)) kv.1 = some e ∧
      decrypt_password e.password (derive_key new_password newSalt) = decrypt_password kv.2.password st.master_key) ∧
    verify_master_password (change_master_password st fs new_password newSalt ent).2.2 old_password = .ok false := by
  rw [change_master_password_eq, List.take_left' hsalt]
  have hT : get_all_passwords st
      = st.passwords.map (fun kv => (kv.2.service, kv.2.username, decrypt_password kv.2.password st.master_key, kv.2.date)) := rfl
  have hsome' : ∀ t ∈ get_all_passwords st, t.2.2.1.isSome = true := by
    rw [hT]
    intro t ht
    obtain ⟨kv, hkv, rfl⟩ := List.mem_map.mp ht
    exact hsome kv hkv
  have habs' : ∀ t ∈ get_all_passwords st,
      dictContains [] (pyId t.1 t.2.1) = false := fun _ _ => rfl
  have hpair : (get_all_passwords st).Pairwise
      (fun a b => pyId a.1 a.2.1 ≠ pyId b.1 b.2.1) := by
    rw [hT]
    apply List.pairwise_map.mpr
    have hp : st.passwords.Pairwise (fun a b => a.1 ≠ b.1) :=
      List.pairwise_map.mp hnodup
    apply List.Pairwise.imp_of_mem _ hp
    intro a b ha hb hab
    simp only [← hkeys a ha, ← hkeys b hb]
    exact hab
  obtain ⟨hst2, _, hfs2⟩ := readdLoop_spec ent
    (fun m => ⟨(hent m).2.2.1, (hent m).2.2.2.1⟩) (derive_key new_password newSalt)
    (get_all_passwords st) [] { fs with masterKey := some (newSalt ++ derive_key new_password newSalt) }
    0 hsome' habs' hpair
  have hTne : get_all_passwords st ≠ [] := by
    rw [hT]
    simp [hne]
  obtain ⟨n2, hn2len, hn2b, hfs⟩ := hfs2 hTne
  rw [hfs]
  rw [List.nil_append] at hfs ⊢
  have hload : load_passwords
      { { fs with masterKey := some (newSalt ++ derive_key new_password newSalt) } with db := some (encrypt_password (serializeDict (rotatedDict (derive_key new_password newSalt) ent 0 (get_all_passwords st))) (derive_key new_password newSalt) n2) }
      (derive_key new_password newSalt)
      = rotatedDict (derive_key new_password newSalt) ent 0 (get_all_passwords st) := by
    apply load_encrypted _ _ _ _ _ hn2len hn2b
    rw [hT]
    exact rotatedDict_bytes (derive_key new_password newSalt) st.master_key ent
      (fun m => ⟨(hent m).2.1, (hent m).2.2.2.2⟩) st.passwords 0 hbytes
  refine ⟨rfl, ?_, ?_, ?_, ?_⟩
  · simp only [get_master_key]
    rw [List.take_left' hsalt]
  · rw [hload, hT]
    exact rotatedDict_length _ st.master_key ent st.passwords 0 hsome
  · intro kv hkv
    rw [hload, hT]
    exact rotatedDict_get (derive_key new_password newSalt) st.master_key ent
      (fun m => ⟨(hent m).1, (hent m).2.1⟩) st.passwords 0 hkeys hsome hnodup kv hkv
  · simp only [verify_master_password, verifyCore, hash_password]
    rw [List.take_left' hsalt, List.drop_left' hsalt,
      ← derive_key_length new_password newSalt, List.take_length]
    have hb : (derive_key old_password newSalt == derive_key new_password newSalt) = false :=
      beq_eq_false_iff_ne.mpr hold
    rw [hb]

set_option maxRecDepth 100000 in
theorem C7_rotation_preserves_records_witness :
    (change_master_password (PMState.mk (derive_key [111] (List.replicate 16 4)) [(pyId [97] [98], Entry.mk [97] [98] (encrypt_password [1] (derive_key [111] (List.replicate 16 4)) (List.replicate 12 7)) [50]), (pyId [99] [100], Entry.mk [99] [100] (encrypt_password [2] (derive_key [111] (List.replicate 16 4)) (List.replicate 12 8)) [50])]) (FS.mk (some (List.replicate 16 4 ++ derive_key [111] (List.replicate 16 4))) (some [0])) [112] (List.replicate 16 5) (fun _ => (List.replicate 12 9, List.replicate 12 10, [51]))).1 = true ∧
    get_master_key (change_master_password (PMState.mk (derive_key [111] (List.replicate 16 4)) [(pyId [97] [98], Entry.mk [97] [98] (encrypt_password [1] (derive_key [111] (List.replicate 16 4)) (List.replicate 12 7)) [50]), (pyId [99] [100], Entry.mk [99] [100] (encrypt_password [2] (derive_key [111] (List.replicate 16 4)) (List.replicate 12 8)) [50])]) (FS.mk (some (List.replicate 16 4 ++ derive_key [111] (List.replicate 16 4))) (some [0])) [112] (List.replicate 16 5) (fun _ => (List.replicate 12 9, List.replicate 12 10, [51]))).2.2 [112] = some (derive_key [112] (List.replicate 16 5)) ∧
    (load_passwords (change_master_password (PMState.mk (derive_key [111] (List.replicate 16 4)) [(pyId [97] [98], Entry.mk [97] [98] (encrypt_password [1] (derive_key [111] (List.replicate 16 4)) (List.replicate 12 7)) [50]), (pyId [99] [100], Entry.mk [99] [100] (encrypt_password [2] (derive_key [111] (List.replicate 16 4)) (List.replicate 12 8)) [50])]) (FS.mk (some (List.replicate 16 4 ++ derive_key [111] (List.replicate 16 4))) (some [0])) [112] (List.replicate 16 5) (fun _ => (List.replicate 12 9, List.replicate 12 10, [51]))).2.2 (derive_key [112] (List.replicate 16 5))).length = ([(pyId [97] [98], Entry.mk [97] [98] (encrypt_password [1] (derive_key [111] (List.replicate 16 4)) (List.replicate 12 7)) [50]), (pyId [99] [100], Entry.mk [99] [100] (encrypt_password [2] (derive_key [111] (List.replicate 16 4)) (List.replicate 12 8)) [50])] : Dict).length ∧
    verify_master_password (change_master_password (PMState.mk (derive_key [111] (List.replicate 16 4)) [(pyId [97] [98], Entry.mk [97] [98] (encrypt_password [1] (derive_key [111] (List.replicate 16 4)) (List.replicate 12 7)) [50]), (pyId [99] [100], Entry.mk [99] [100] (encrypt_password [2] (derive_key [111] (List.replicate 16 4)) (List.replicate 12 8)) [50])]) (FS.mk (some (List.replicate 16 4 ++ derive_key [111] (List.replicate 16 4))) (some [0])) [112] (List.replicate 16 5) (fun _ => (List.replicate 12 9, List.replicate 12 10, [51]))).2.2 [111] = Except.ok false := by
  have h := C7_rotation_preserves_records (PMState.mk (derive_key [111] (List.replicate 16 4)) [(pyId [97] [98], Entry.mk [97] [98] (encrypt_password [1] (derive_key [111] (List.replicate 16 4)) (List.replicate 12 7)) [50]), (pyId [99] [100], Entry.mk [99] [100] (encrypt_password [2] (derive_key [111] (List.replicate 16 4)) (List.replicate 12 8)) [50])]) (FS.mk (some (List.replicate 16 4 ++ derive_key [111] (List.replicate 16 4))) (some [0])) [111] [112]
    (List.replicate 16 5) (fun _ => (List.replicate 12 9, List.replicate 12 10, [51]))
    (by decide) (by decide) (by decide) (by decide) (by decide)
    (by
      intro m
      refine ⟨by simp, ?_, by simp, ?_, ?_⟩
      · intro x hx
        rw [List.eq_of_mem_replicate hx]
        omega
      · intro x hx
        rw [List.eq_of_mem_replicate hx]
        omega
      · intro x hx
        simp only [List.mem_singleton] at hx
        omega)
    (by decide) (by decide)
  exact ⟨h.1, h.2.1, h.2.2.1, h.2.2.2.2⟩
